import Mathlib

set_option maxHeartbeats 1000000

namespace FashionDashboard

/-!
Shallow embedding of `src/fashion_dashboard.py`, a Streamlit dashboard that
loads a sales table (CSV upload or MySQL query), normalizes its column names
onto the canonical fields `Date` / `Sales` / `Category`, filters rows by a
user-selected set of categories, computes three scalar metrics, and renders a
forecast section.

The embedding follows the source line by line:
* column-name standardization `df.columns.str.strip().str.lower()` (lines 83, 98)
  is `stripLower`, modelled for ASCII names (Python's `str.lower` restricted to
  ASCII letters, `str.strip` on common whitespace);
* the substring tests `"date" in col` etc. (lines 86, 102-104) are `hasSub`;
* `df.rename(columns={old: new})` renames every column whose label equals
  `old` (pandas renames by label, so duplicate labels are all renamed): `renameLabel`;
* `pd.to_datetime` on the `Date` column (lines 89, 116) is `coerceDateCol`;
  it requires the label `Date` to occur exactly once (with duplicated `Date`
  columns the real call raises) and every cell of that column to coerce;
  date strings are modelled for the ISO `YYYY-MM-DD` format, and already
  coerced values are fixed points, as for `pd.to_datetime`;
* the whole two-pass normalization (lines 83-116) is `normalize`; pass 2
  (lines 98-113) computes its three candidate lists on one snapshot of the
  columns (the `column_map` dict comprehension) and then renames in the loop
  order `date`, `sales`, `category`; a rename whose label has gone stale is a
  silent no-op, exactly as `DataFrame.rename` with a missing key;
* the filtered/metrics/forecast phase (lines 123-172) operates on the typed
  row model `SalesRecord`, whose fields are the three canonical columns;
* input acquisition (lines 36-79) is `acquireData` / `runStart`.
-/

/-- Cell values of the in-memory table: raw strings, numbers, and coerced
datetimes. A datetime is encoded as the integer `y*10000 + m*100 + d`. -/
inductive Value where
  | str (s : String)
  | num (n : Int)
  | date (d : Int)
deriving DecidableEq

/-- ASCII lower-casing of one character, modelling Python `str.lower` on
(ASCII) column names. -/
def lowerChar (c : Char) : Char :=
  if c = 'A' then 'a' else if c = 'B' then 'b' else if c = 'C' then 'c'
  else if c = 'D' then 'd' else if c = 'E' then 'e' else if c = 'F' then 'f'
  else if c = 'G' then 'g' else if c = 'H' then 'h' else if c = 'I' then 'i'
  else if c = 'J' then 'j' else if c = 'K' then 'k' else if c = 'L' then 'l'
  else if c = 'M' then 'm' else if c = 'N' then 'n' else if c = 'O' then 'o'
  else if c = 'P' then 'p' else if c = 'Q' then 'q' else if c = 'R' then 'r'
  else if c = 'S' then 's' else if c = 'T' then 't' else if c = 'U' then 'u'
  else if c = 'V' then 'v' else if c = 'W' then 'w' else if c = 'X' then 'x'
  else if c = 'Y' then 'y' else if c = 'Z' then 'z' else c

/-- Whitespace recognised by the model of `str.strip`. -/
def isWsChar (c : Char) : Bool :=
  c = ' ' || c = '\t' || c = '\n' || c = '\r' || c = '\x0b' || c = '\x0c'

/-- Strip leading and trailing whitespace from a character list. -/
def trimChars (l : List Char) : List Char :=
  ((l.dropWhile isWsChar).reverse.dropWhile isWsChar).reverse

/-- Model of `name.strip().lower()` applied to a column name (line 83 / 98). -/
def stripLower (s : String) : String :=
  String.mk ((trimChars s.data).map lowerChar)

/-- Does the first list start with the second? -/
def leadsWith : List Char → List Char → Bool
  | _, [] => true
  | [], _ :: _ => false
  | a :: as, b :: bs => a = b && leadsWith as bs

/-- Does the first list contain the second as a contiguous subsequence? -/
def containsSeq : List Char → List Char → Bool
  | [], pat => pat.isEmpty
  | a :: t, pat => leadsWith (a :: t) pat || containsSeq t pat

/-- Model of Python's substring test `pat in s` (lines 86, 102-104). -/
def hasSub (s pat : String) : Bool := containsSeq s.data pat.data

/-- Model of `df.rename(columns={old: new})` on the column-name list: every
label equal to `old` is replaced by `new`; if `old` is absent this is a
silent no-op, as for `DataFrame.rename`. -/
def renameLabel (old new : String) (l : List String) : List String :=
  l.map fun c => if c = old then new else c

/-- Model of `[col for col in df.columns if pat in col][0]` guarded by a
non-emptiness test: the first column name containing `pat`. -/
def firstMatch (pat : String) (l : List String) : Option String :=
  (l.filter fun c => hasSub c pat).head?

/-- Index of the first occurrence of a label in the column list (the column
position that `df[label]` addresses when the label is unique). -/
def firstIdx (a : String) : List String → Nat
  | [] => 0
  | b :: t => if b = a then 0 else firstIdx a t + 1

/-- Number of occurrences of a label in the column list. -/
def cnt (a : String) : List String → Nat
  | [] => 0
  | b :: t => (if b = a then 1 else 0) + cnt a t

/-- Value of a decimal digit character. -/
def digitVal (c : Char) : Option Nat :=
  if '0' ≤ c ∧ c ≤ '9' then some (c.toNat - 48) else none

/-- Parse an ISO `YYYY-MM-DD` date string to the integer encoding
`y*10000 + m*100 + d`. This models the date formats the program's data
actually uses; strings `pd.to_datetime` cannot parse raise there and are
`none` here. -/
def parseIsoDate (s : String) : Option Int :=
  match s.data with
  | [y1, y2, y3, y4, h1, m1, m2, h2, d1, d2] =>
    if h1 = '-' ∧ h2 = '-' then
      match digitVal y1, digitVal y2, digitVal y3, digitVal y4,
            digitVal m1, digitVal m2, digitVal d1, digitVal d2 with
      | some a, some b, some c, some d, some e, some f, some g, some k =>
        some (Int.ofNat ((((a * 10 + b) * 10 + c) * 10 + d) * 10000
          + (e * 10 + f) * 100 + (g * 10 + k)))
      | _, _, _, _, _, _, _, _ => none
    else none
  | _ => none

/-- Model of `pd.to_datetime` on a single cell: an already coerced datetime is
returned unchanged, a number is interpreted as an epoch offset (always
succeeds, as in pandas), a string must parse as a date. -/
def toDatetime : Value → Option Value
  | .date d => some (.date d)
  | .num n => some (.date n)
  | .str s => (parseIsoDate s).map .date

/-- The in-memory table: ordered column names plus rows in source order; row
`r` holds the cell of column `j` at position `j`. -/
structure Table where
  cols : List String
  rows : List (List Value)
deriving DecidableEq

/-- All-or-nothing map over a list: `none` as soon as one element fails. -/
def optMap (f : α → Option β) : List α → Option (List β)
  | [] => some []
  | a :: t =>
    match f a, optMap f t with
    | some b, some bt => some (b :: bt)
    | _, _ => none

/-- Coerce the cell at position `p` of one row with `toDatetime`. -/
def coerceRowAt (p : Nat) (r : List Value) : Option (List Value) :=
  match r.get? p with
  | none => none
  | some v => (toDatetime v).map fun w => r.set p w

/-- Model of `df["Date"] = pd.to_datetime(df["Date"])` (lines 89, 116): the
label `Date` must address exactly one column (with duplicates the real call
raises, a fatal error), and every cell of that column must coerce. -/
def coerceDateCol (t : Table) : Option Table :=
  if cnt "Date" t.cols = 1 then
    (optMap (coerceRowAt (firstIdx "Date" t.cols)) t.rows).map fun rs =>
      ⟨t.cols, rs⟩
  else none

/-- Failure modes of the normalization pipeline: a missing semantic column
(`st.error` + `st.write(available)` + `st.stop`, lines 90-93 / 110-113) or a
fatal coercion error (uncaught `pd.to_datetime` exception). -/
inductive NormErr where
  | missing (field : String) (available : List String)
  | coerceFail
deriving DecidableEq

/-- The full normalization pipeline, lines 83-116 of the source:
standardize names, resolve and rename the first `date` match, coerce it,
standardize again, resolve all three fields on one snapshot of the columns
(`column_map`), rename them in the loop order `date`, `sales`, `category`,
and coerce the `Date` column a second time. -/
def normalize (t : Table) : Except NormErr Table :=
  let L := t.cols.map stripLower
  match firstMatch "date" L with
  | none => .error (.missing "Date" L)
  | some dn =>
    match coerceDateCol ⟨renameLabel dn "Date" L, t.rows⟩ with
    | none => .error .coerceFail
    | some u =>
      let M := u.cols.map stripLower
      match firstMatch "date" M with
      | none => .error (.missing "Date" M)
      | some d2 =>
        let colsD := renameLabel d2 "Date" M
        match firstMatch "sales" M with
        | none => .error (.missing "Sales" colsD)
        | some s2 =>
          let colsS := renameLabel s2 "Sales" colsD
          match firstMatch "category" M with
          | none => .error (.missing "Category" colsS)
          | some c2 =>
            match coerceDateCol ⟨renameLabel c2 "Category" colsS, u.rows⟩ with
            | none => .error .coerceFail
            | some v => .ok v

/-- Cell of row `i`, column position `j`. -/
def cellAt (t : Table) (i j : Nat) : Option Value :=
  (t.rows.get? i).bind fun r => r.get? j

/-- One normalized sales row: the three canonical fields the rest of the
pipeline reads (spec §3, SalesRecord). -/
structure SalesRecord where
  date : Int
  category : String
  sales : Int
deriving DecidableEq

/-- Line 132 of the source: the category filter.
`df[df["Category"].isin(selected)] if selected else df.iloc[0:0]` —
a boolean-mask selection that keeps source order when the selection is
non-empty, and an explicitly empty table when it is empty. -/
def filteredData (t : List SalesRecord) (sel : List String) : List SalesRecord :=
  if sel.isEmpty then []
  else t.filter fun r => decide (r.category ∈ sel)

/-- Sum of the `Sales` column, `filtered_data["Sales"].sum()` (line 139);
pandas sums an empty series to 0. -/
def sumSales (f : List SalesRecord) : Int := (f.map (·.sales)).sum

/-- The rendered Total Sales metric string of line 139. -/
def totalSalesMetric (f : List SalesRecord) : String :=
  toString (sumSales f) ++ " units"

/-- Left-pad a numeral with zeros to width `k`. -/
def padZeros (k : Nat) (n : Nat) : String :=
  let s := toString n
  String.mk (List.replicate (k - s.length) '0' ++ s.data)

/-- Model of `.strftime("%Y-%m-%d")` on the date encoding (line 141). -/
def isoFormat (d : Int) : String :=
  let n := d.toNat
  padZeros 4 (n / 10000) ++ "-" ++ padZeros 2 (n / 100 % 100) ++ "-"
    ++ padZeros 2 (n % 100)

/-- Model of `Series.idxmax` over the `Sales` column: the first row, in table
order, attaining the maximal sales value. -/
def firstMax : List SalesRecord → Option SalesRecord
  | [] => none
  | r :: rs =>
    match firstMax rs with
    | none => some r
    | some m => if r.sales < m.sales then some m else some r

/-- The Highest Sales Day metric of line 141:
`df.loc[df["Sales"].idxmax(), "Date"].strftime("%Y-%m-%d")` on a non-empty
filtered table, `"N/A"` on an empty one. -/
def highestSalesDay (f : List SalesRecord) : String :=
  match firstMax f with
  | none => "N/A"
  | some m => isoFormat m.date

/-- Summed sales of one category over the filtered rows (the groupby sum). -/
def catSum (f : List SalesRecord) (c : String) : Int :=
  ((f.filter fun r => decide (r.category = c)).map (·.sales)).sum

/-- Lexicographic byte-order comparison of character lists, modelling the
ordering pandas sorts group keys by (ASCII names). -/
def lexLeb : List Char → List Char → Bool
  | [], _ => true
  | _ :: _, [] => false
  | a :: as, b :: bs =>
    if a.toNat < b.toNat then true
    else if b.toNat < a.toNat then false
    else lexLeb as bs

/-- String comparison used for the sorted group-key order. -/
def strLeb (a b : String) : Bool := lexLeb a.data b.data

/-- Insert into a sorted list of category keys (groupby sorts its keys). -/
def insertStr (c : String) : List String → List String
  | [] => [c]
  | x :: xs => if strLeb c x then c :: x :: xs else x :: insertStr c xs

/-- Insertion sort of the category keys, modelling the sorted group order of
`df.groupby("Category")`. -/
def sortStrs : List String → List String
  | [] => []
  | x :: xs => insertStr x (sortStrs xs)

/-- The distinct categories of the filtered table in groupby key order. -/
def distinctCats (f : List SalesRecord) : List String :=
  sortStrs ((f.map (·.category)).dedup)

/-- Model of `idxmax` over the per-category sales sums in key order: the
first key attaining the maximal sum. -/
def firstMaxCat (f : List SalesRecord) : List String → Option String
  | [] => none
  | c :: cs =>
    match firstMaxCat f cs with
    | none => some c
    | some m => if catSum f c < catSum f m then some m else some c

/-- The Top Selling Category metric of line 140:
`df.groupby("Category")["Sales"].sum().idxmax()` on a non-empty filtered
table, `"N/A"` on an empty one. -/
def topSellingCategory (f : List SalesRecord) : String :=
  if f.isEmpty then "N/A"
  else
    match firstMaxCat f (distinctCats f) with
    | none => "N/A"
    | some c => c

/-- Items the main page renders, in order (lines 137-172). `modelFit` stands
for the Prophet fit/predict call of lines 159-164. -/
inductive PageItem where
  | metricsRow
  | trendChart
  | forecastDiag
  | modelFit
  | forecastChart
  | dataTable
deriving DecidableEq

/-- Lines 153-168: the forecast section renders an error diagnostic and
nothing else when the filtered table is empty, and otherwise fits the model
and renders the forecast chart. -/
def forecastSection (f : List SalesRecord) : List PageItem :=
  if f.isEmpty then [PageItem.forecastDiag]
  else [PageItem.modelFit, PageItem.forecastChart]

/-- The whole main page, lines 137-172: metrics and trend chart, the
forecast section, then the data table (line 172) unconditionally. -/
def renderPage (f : List SalesRecord) : List PageItem :=
  [PageItem.metricsRow, PageItem.trendChart] ++ forecastSection f
    ++ [PageItem.dataTable]

/-- The widget state a run of the script sees (lines 30-45): the database
toggle, whether the Connect button fired this run, the outcome of the query,
and the uploaded file if any. -/
structure RunConfig where
  useDb : Bool
  connectClicked : Bool
  dbFail : Bool
  dbCols : List String
  dbRows : List (List Value)
  upload : Option Table
deriving DecidableEq

/-- Outcome of the input-acquisition phase (lines 36-79). `toPipeline none`
is the fall-through in which `sales_data` is still `None` when line 83 runs. -/
inductive Acquired where
  | stoppedPrompt
  | stoppedDbError
  | toPipeline (d : Option Table)
deriving DecidableEq

/-- Lines 36-79 of the source. In the database branch, `sales_data` is only
assigned inside `if st.sidebar.button("Connect")`; when the button did not
fire this run, execution falls through with `sales_data = None`. The
prompt-and-stop branch (lines 77-79) is reached only when the toggle is off
and no file is uploaded. -/
def acquireData (cfg : RunConfig) : Acquired :=
  if cfg.useDb then
    if cfg.connectClicked then
      if cfg.dbFail then .stoppedDbError
      else if cfg.dbRows.isEmpty then
        .toPipeline (some ⟨["Date", "Category", "Sales"], []⟩)
      else .toPipeline (some ⟨cfg.dbCols, cfg.dbRows⟩)
    else .toPipeline none
  else
    match cfg.upload with
    | some t => .toPipeline (some t)
    | none => .stoppedPrompt

deriving instance DecidableEq for Except

/-- How a run of the script ends, up to and including normalization.
`noneTypeError` is the uncaught `AttributeError` raised by
`sales_data.columns` on line 83 when `sales_data` is `None`. -/
inductive RunOutcome where
  | promptStop
  | dbErrorStop
  | noneTypeError
  | normalized (r : Except NormErr Table)
deriving DecidableEq

/-- The start of a run: acquisition (lines 36-79) followed by normalization
(lines 83-116). -/
def runStart (cfg : RunConfig) : RunOutcome :=
  match acquireData cfg with
  | .stoppedPrompt => .promptStop
  | .stoppedDbError => .dbErrorStop
  | .toPipeline none => .noneTypeError
  | .toPipeline (some t) => .normalized (normalize t)

/-- Input table refuting the first-match claim: `"datesales"` is the first
column containing `"sales"`, but pass 1 renames it for `date`, so the later
`sales` resolution renames `"mysales"` instead. -/
def tblC2 : Table :=
  ⟨["datesales", "mysales", "category"],
   [[Value.str "2023-01-01", Value.num 5, Value.str "A"]]⟩

/-- Input table refuting idempotence: `"sales_target"` is renamed to `Sales`
on the first run; on the second run the canonical `Sales` lower-cases to
`"sales"`, colliding with the leftover `"sales"` column, and the rename maps
both labels. -/
def tblC3 : Table :=
  ⟨["sales_target", "date", "sales", "category"],
   [[Value.num 1, Value.str "2023-01-01", Value.num 2, Value.str "A"]]⟩

/-- Input table for the missing-field counterexample: only `"category"` is
genuinely absent, but pass 1 consumes `"datesales"` (the sole `sales`
match), so the failure names `Sales`. -/
def tblC7 : Table :=
  ⟨["datesales", "x"], [[Value.str "2023-01-01", Value.num 1]]⟩

/-- A regular input table used by witnesses: distinct matches per field plus
one unrelated column. -/
def tblW : Table :=
  ⟨["order date", "sales", "category", "note"],
   [[Value.str "2023-01-05", Value.num 10, Value.str "Dresses", Value.str "x"],
    [Value.str "2023-01-06", Value.num 20, Value.str "Shoes", Value.str "y"]]⟩

/-- The normalized form of `tblW`. -/
def tblWN : Table :=
  ⟨["Date", "Sales", "Category", "note"],
   [[Value.date 20230105, Value.num 10, Value.str "Dresses", Value.str "x"],
    [Value.date 20230106, Value.num 20, Value.str "Shoes", Value.str "y"]]⟩

/-- Typed rows of the worked scenario in spec §8. -/
def rowsW : List SalesRecord :=
  [⟨20230101, "Dresses", 10⟩, ⟨20230102, "Dresses", 20⟩, ⟨20230101, "Shoes", 5⟩]

/-- Result of normalizing `tblC3` once. -/
def tblC3N : Table :=
  ⟨["Sales", "Date", "sales", "Category"],
   [[Value.num 1, Value.date 20230101, Value.num 2, Value.str "A"]]⟩

/-- Result of normalizing `tblC3` twice: the leftover `"sales"` column has
also been renamed, so this differs from `tblC3N`. -/
def tblC3NN : Table :=
  ⟨["Sales", "Date", "Sales", "Category"],
   [[Value.num 1, Value.date 20230101, Value.num 2, Value.str "A"]]⟩

/-- Run state with the database toggle on but the Connect button not fired,
and no upload in play: neither a file nor a successful connection. -/
def cfgToggleOnly : RunConfig := ⟨true, false, false, [], [], none⟩

/-- Same, but with a file uploaded: the `elif uploaded_file` branch is still
skipped because the toggle is on. -/
def cfgToggleUpload : RunConfig := ⟨true, false, false, [], [], some tblW⟩

/-- Run state with the toggle off and no upload: the prompt branch. -/
def cfgNoSource : RunConfig := ⟨false, false, false, [], [], none⟩

/-- Table with no column matching `date`. -/
def tblC7a : Table := ⟨["x", "y"], []⟩

/-- Table with a date column but no column matching `sales`. -/
def tblC7b : Table := ⟨["date", "x"], [[Value.str "2023-01-01", Value.num 1]]⟩

/-- Table with date and sales columns but no column matching `category`. -/
def tblC7c : Table :=
  ⟨["date", "sales", "x"], [[Value.str "2023-01-01", Value.num 2, Value.num 3]]⟩

/-! Theorems. First the claims about the filtered phase (C1, C4, C8) and
input acquisition (C9), then the metrics (C5, C6), then the normalization
pipeline (C2, C3, C7, C10). -/

/-- C1: for every SalesTable and every subset of its category labels, the
category filter returns exactly the rows whose category is a member of the
selection (membership characterization), preserving the original relative
row order (the result is a sublist of the input), and the empty selection
yields the empty table, not the full one. -/
theorem c1_category_filter (t : List SalesRecord) (sel : List String) :
    (sel = [] → filteredData t sel = []) ∧
    List.Sublist (filteredData t sel) t ∧
    (∀ r, r ∈ filteredData t sel ↔ r ∈ t ∧ r.category ∈ sel) := by
  refine ⟨fun h => by simp [filteredData, h], ?_, fun r => ?_⟩
  · unfold filteredData
    split
    · exact List.nil_sublist t
    · exact List.filter_sublist t
  · by_cases hs : sel.isEmpty
    · simp [filteredData, hs, List.isEmpty_iff.mp hs]
    · simp [filteredData, hs, List.mem_filter]

/-- Witness for C1 at the spec §8 scenario rows. -/
theorem c1_category_filter_w :
    filteredData rowsW [] = [] ∧
    List.Sublist (filteredData rowsW ["Shoes"]) rowsW ∧
    ((⟨20230101, "Shoes", 5⟩ : SalesRecord) ∈ filteredData rowsW ["Shoes"] ↔
      (⟨20230101, "Shoes", 5⟩ : SalesRecord) ∈ rowsW ∧ "Shoes" ∈ ["Shoes"]) :=
  ⟨(c1_category_filter rowsW []).1 rfl,
   (c1_category_filter rowsW ["Shoes"]).2.1,
   (c1_category_filter rowsW ["Shoes"]).2.2 ⟨20230101, "Shoes", 5⟩⟩

/-- C4: the Total Sales metric is the arithmetic sum of the Sales field over
the filtered rows, and on an empty filtered table it is numeric zero,
displayed as the string `0 units`. -/
theorem c4_total_sales (t : List SalesRecord) (sel : List String) :
    sumSales (filteredData t sel)
      = (filteredData t sel).foldr (fun r a => r.sales + a) 0 ∧
    (filteredData t sel = [] →
      sumSales (filteredData t sel) = 0 ∧
      totalSalesMetric (filteredData t sel) = "0 units") := by
  constructor
  · generalize filteredData t sel = f
    induction f with
    | nil => rfl
    | cons r rs ih => simp [sumSales, List.foldr_cons, ← ih]
  · intro h
    rw [h]
    exact ⟨rfl, by decide⟩

/-- Witness for C4 at the spec §8 scenario rows. -/
theorem c4_total_sales_w :
    sumSales (filteredData rowsW ["Dresses"])
      = (filteredData rowsW ["Dresses"]).foldr (fun r a => r.sales + a) 0 ∧
    totalSalesMetric (filteredData rowsW []) = "0 units" :=
  ⟨(c4_total_sales rowsW ["Dresses"]).1,
   ((c4_total_sales rowsW []).2 (by decide)).2⟩

/-- C8: the forecasting step is skipped exactly when the filtered table is
empty — then the diagnostic is shown and neither the model fit nor the
forecast chart happens — while on a non-empty filtered table the fit and
chart happen and no diagnostic is shown; the data table renders in every
case. -/
theorem c8_forecast_skip (f : List SalesRecord) :
    (f = [] ↔ (PageItem.forecastDiag ∈ renderPage f ∧
      PageItem.modelFit ∉ renderPage f ∧
      PageItem.forecastChart ∉ renderPage f)) ∧
    (f ≠ [] → PageItem.modelFit ∈ renderPage f ∧
      PageItem.forecastChart ∈ renderPage f ∧
      PageItem.forecastDiag ∉ renderPage f) ∧
    PageItem.dataTable ∈ renderPage f := by
  cases f with
  | nil => refine ⟨by simp [renderPage, forecastSection], by simp, ?_⟩
           simp [renderPage, forecastSection]
  | cons r rs =>
    refine ⟨?_, ?_, ?_⟩ <;> simp [renderPage, forecastSection]

/-- Witness for C8 on a non-empty and an empty filtered table. -/
theorem c8_forecast_skip_w :
    (PageItem.modelFit ∈ renderPage rowsW ∧
      PageItem.forecastChart ∈ renderPage rowsW ∧
      PageItem.forecastDiag ∉ renderPage rowsW) ∧
    (PageItem.forecastDiag ∈ renderPage ([] : List SalesRecord) ∧
      PageItem.modelFit ∉ renderPage ([] : List SalesRecord) ∧
      PageItem.forecastChart ∉ renderPage ([] : List SalesRecord)) ∧
    PageItem.dataTable ∈ renderPage ([] : List SalesRecord) :=
  ⟨(c8_forecast_skip rowsW).2.1 (by decide),
   (c8_forecast_skip ([] : List SalesRecord)).1.mp rfl,
   (c8_forecast_skip ([] : List SalesRecord)).2.2⟩

/-- C9: the claim says every run with neither an upload nor a successful
database connection terminates with the supply-a-source prompt before
normalization. The code violates this: with the database toggle on and the
Connect button not fired, `sales_data` stays `None`, no prompt or stop
happens, and line 83 (`sales_data.columns`) raises an uncaught
`AttributeError` — with or without an uploaded file. The prompt branch is
reached only with the toggle off and no upload. -/
theorem c9_input_unavailable_bug :
    runStart cfgToggleOnly = RunOutcome.noneTypeError ∧
    runStart cfgToggleUpload = RunOutcome.noneTypeError ∧
    RunOutcome.noneTypeError ≠ RunOutcome.promptStop ∧
    runStart cfgNoSource = RunOutcome.promptStop := by
  refine ⟨rfl, rfl, by decide, rfl⟩

theorem firstMax_isSome (r : SalesRecord) (rs : List SalesRecord) :
    (firstMax (r :: rs)).isSome := by
  rw [firstMax]
  cases firstMax rs with
  | none => rfl
  | some m =>
    dsimp only
    split <;> rfl

theorem firstMax_spec (f : List SalesRecord) (m : SalesRecord)
    (h : firstMax f = some m) :
    ∃ pre post, f = pre ++ m :: post ∧
      (∀ r ∈ pre, r.sales < m.sales) ∧ (∀ r ∈ f, r.sales ≤ m.sales) := by
  induction f generalizing m with
  | nil => simp [firstMax] at h
  | cons r rs ih =>
    rw [firstMax] at h
    cases h0 : firstMax rs with
    | none =>
      rw [h0] at h
      injection h with h
      subst h
      have hrs : rs = [] := by
        cases rs with
        | nil => rfl
        | cons a as =>
          have := firstMax_isSome a as
          rw [h0] at this
          simp at this
      subst hrs
      exact ⟨[], [], rfl, by simp, by simp⟩
    | some m0 =>
      rw [h0] at h
      dsimp only at h
      split at h
      · next hlt =>
        injection h with h
        subst h
        obtain ⟨pre, post, hf, hpre, hmax⟩ := ih m0 h0
        refine ⟨r :: pre, post, by rw [hf]; rfl, ?_, ?_⟩
        · intro x hx
          rcases List.mem_cons.mp hx with hx | hx
          · exact hx ▸ hlt
          · exact hpre x hx
        · intro x hx
          rcases List.mem_cons.mp hx with hx | hx
          · exact hx ▸ le_of_lt hlt
          · exact hmax x hx
      · next hge =>
        injection h with h
        subst h
        obtain ⟨pre, post, hf, hpre, hmax⟩ := ih m0 h0
        refine ⟨[], rs, rfl, by simp, ?_⟩
        intro x hx
        rcases List.mem_cons.mp hx with hx | hx
        · exact hx ▸ le_refl _
        · exact le_trans (hmax x hx) (not_lt.mp hge)

/-- C5: on a non-empty filtered table the Highest Sales Day metric is the
formatted Date of the first row, in table order, attaining the maximal
Sales value (all rows weakly below it, all earlier rows strictly below);
on an empty filtered table it is the string N/A. -/
theorem c5_highest_sales_day (f : List SalesRecord) :
    (f = [] → highestSalesDay f = "N/A") ∧
    (f ≠ [] → ∃ m pre post, f = pre ++ m :: post ∧
      highestSalesDay f = isoFormat m.date ∧
      (∀ r ∈ f, r.sales ≤ m.sales) ∧
      (∀ r ∈ pre, r.sales < m.sales)) := by
  constructor
  · intro h
    rw [h]
    rfl
  · intro h
    cases f with
    | nil => exact absurd rfl h
    | cons r rs =>
      have hs := firstMax_isSome r rs
      cases h0 : firstMax (r :: rs) with
      | none =>
        rw [h0] at hs
        simp at hs
      | some m =>
        obtain ⟨pre, post, hf, hpre, hmax⟩ := firstMax_spec _ m h0
        exact ⟨m, pre, post, hf, by rw [highestSalesDay, h0], hmax, hpre⟩

/-- Witness for C5 at the spec §8 scenario rows (highest sales day is
2023-01-02, the row with sales 20). -/
theorem c5_highest_sales_day_w :
    highestSalesDay rowsW = "2023-01-02" ∧
    (rowsW ≠ [] ∧ ∃ m pre post, rowsW = pre ++ m :: post ∧
      highestSalesDay rowsW = isoFormat m.date ∧
      (∀ r ∈ rowsW, r.sales ≤ m.sales) ∧
      (∀ r ∈ pre, r.sales < m.sales)) :=
  ⟨by decide, by decide, (c5_highest_sales_day rowsW).2 (by decide)⟩

theorem insertStr_mem (x c : String) (l : List String) :
    x ∈ insertStr c l ↔ x = c ∨ x ∈ l := by
  induction l with
  | nil => simp [insertStr]
  | cons a as ih =>
    rw [insertStr]
    split
    · exact List.mem_cons
    · simp only [List.mem_cons, ih]
      tauto

theorem sortStrs_mem (x : String) (l : List String) :
    x ∈ sortStrs l ↔ x ∈ l := by
  induction l with
  | nil => simp [sortStrs]
  | cons a as ih => simp [sortStrs, insertStr_mem, ih]

theorem firstMaxCat_isSome (f : List SalesRecord) (c : String)
    (cs : List String) : (firstMaxCat f (c :: cs)).isSome := by
  rw [firstMaxCat]
  cases firstMaxCat f cs with
  | none => rfl
  | some m =>
    dsimp only
    split <;> rfl

theorem firstMaxCat_spec (f : List SalesRecord) (cs : List String)
    (m : String) (h : firstMaxCat f cs = some m) :
    m ∈ cs ∧ ∀ c ∈ cs, catSum f c ≤ catSum f m := by
  induction cs generalizing m with
  | nil => simp [firstMaxCat] at h
  | cons c cs ih =>
    rw [firstMaxCat] at h
    cases h0 : firstMaxCat f cs with
    | none =>
      rw [h0] at h
      injection h with h
      subst h
      have hcs : cs = [] := by
        cases cs with
        | nil => rfl
        | cons b bs =>
          have := firstMaxCat_isSome f b bs
          rw [h0] at this
          simp at this
      subst hcs
      exact ⟨by simp, by simp⟩
    | some m0 =>
      rw [h0] at h
      dsimp only at h
      split at h
      · next hlt =>
        injection h with h
        subst h
        obtain ⟨hm, hmax⟩ := ih m0 h0
        refine ⟨List.mem_cons_of_mem c hm, ?_⟩
        intro x hx
        rcases List.mem_cons.mp hx with hx | hx
        · exact hx ▸ le_of_lt hlt
        · exact hmax x hx
      · next hge =>
        injection h with h
        subst h
        obtain ⟨hm, hmax⟩ := ih m0 h0
        refine ⟨List.mem_cons_self _ _, ?_⟩
        intro x hx
        rcases List.mem_cons.mp hx with hx | hx
        · exact hx ▸ le_refl _
        · exact le_trans (hmax x hx) (not_lt.mp hge)

/-- C6: on a non-empty filtered table the Top Selling Category metric is a
category present among the filtered rows whose summed Sales is maximal over
all categories present (no tie-break is asserted, matching the spec's
"unspecified" tie-break); on an empty filtered table it is N/A. -/
theorem c6_top_category (f : List SalesRecord) :
    (f = [] → topSellingCategory f = "N/A") ∧
    (f ≠ [] → topSellingCategory f ∈ f.map (·.category) ∧
      ∀ r ∈ f, catSum f r.category ≤ catSum f (topSellingCategory f)) := by
  constructor
  · intro h
    rw [h]
    rfl
  · intro h
    cases f with
    | nil => exact absurd rfl h
    | cons r rs =>
      have hmem : r.category ∈ distinctCats (r :: rs) := by
        rw [distinctCats, sortStrs_mem, List.mem_dedup]
        simp
      cases h0 : firstMaxCat (r :: rs) (distinctCats (r :: rs)) with
      | none =>
        cases hdc : distinctCats (r :: rs) with
        | nil => rw [hdc] at hmem; simp at hmem
        | cons b bs =>
          have := firstMaxCat_isSome (r :: rs) b bs
          rw [← hdc, h0] at this
          simp at this
      | some m =>
        have hts : topSellingCategory (r :: rs) = m := by
          rw [topSellingCategory]
          simp [h0]
        obtain ⟨hm, hmax⟩ := firstMaxCat_spec _ _ m h0
        rw [distinctCats, sortStrs_mem, List.mem_dedup] at hm
        constructor
        · rw [hts]
          exact hm
        · intro x hx
          rw [hts]
          apply hmax
          rw [distinctCats, sortStrs_mem, List.mem_dedup]
          exact List.mem_map.mpr ⟨x, hx, rfl⟩

/-- Witness for C6 at the spec §8 scenario rows (top category is Dresses,
with summed sales 30 against 5). -/
theorem c6_top_category_w :
    topSellingCategory rowsW = "Dresses" ∧
    (topSellingCategory rowsW ∈ rowsW.map (·.category) ∧
      ∀ r ∈ rowsW, catSum rowsW r.category
        ≤ catSum rowsW (topSellingCategory rowsW)) :=
  ⟨by decide, (c6_top_category rowsW).2 (by decide)⟩

/-- C2 counterexample: on `tblC2` the first column containing `"sales"` (in
trimmed, lower-cased column order) is `"datesales"` at position 0, but the
normalizer does not rename it to `Sales`: pass 1 renames it to `Date`, and
the `Sales` name lands on position 1 (`"mysales"`), which is not the first
match. So the claim that each field's canonical name goes to exactly the
first matching column in column order fails. -/
theorem c2_first_match_cex :
    firstMatch "sales" (tblC2.cols.map stripLower) = some "datesales" ∧
    (tblC2.cols.map stripLower).get? 0 = some "datesales" ∧
    hasSub "datesales" "sales" = true ∧
    (∃ t, normalize tblC2 = .ok t ∧
      t.cols.get? 0 = some "Date" ∧ t.cols.get? 0 ≠ some "Sales" ∧
      t.cols.get? 1 = some "Sales") := by
  refine ⟨by decide, by decide, by decide,
    ⟨⟨["Date", "Sales", "Category"],
      [[Value.date 20230101, Value.num 5, Value.str "A"]]⟩,
     by decide, by decide, by decide, by decide⟩⟩

/-- C3 counterexample: normalizing `tblC3` once succeeds and yields
`tblC3N`, whose columns are `Sales, Date, sales, Category`; normalizing the
result again renames the leftover `"sales"` column as well (the canonical
`Sales` lower-cases back to `"sales"`, and the pandas rename maps every
column with the matched label), yielding a different table. Normalization
is therefore not idempotent. -/
theorem c3_idempotence_cex :
    normalize tblC3 = .ok tblC3N ∧
    normalize tblC3N = .ok tblC3NN ∧
    tblC3NN ≠ tblC3N := by
  refine ⟨by decide, by decide, by decide⟩

/-- C7 counterexample: in `tblC7` the substring `"sales"` does have a match
(`"datesales"`) and only `"category"` is genuinely absent, yet normalization
fails naming `Sales` — pass 1 consumed the sole sales match by renaming it
to `Date` — so the failure does not name the missing canonical field. -/
theorem c7_missing_field_cex :
    (∃ x ∈ tblC7.cols.map stripLower, hasSub x "sales" = true) ∧
    (∀ x ∈ tblC7.cols.map stripLower, hasSub x "category" = false) ∧
    normalize tblC7 = .error (.missing "Sales" ["Date", "x"]) := by
  refine ⟨by decide, by decide, by decide⟩

theorem lowerChar_of_not_upper (c : Char)
    (hm : c ∉ ['A', 'B', 'C', 'D', 'E', 'F', 'G', 'H', 'I', 'J', 'K', 'L',
      'M', 'N', 'O', 'P', 'Q', 'R', 'S', 'T', 'U', 'V', 'W', 'X', 'Y', 'Z']) :
    lowerChar c = c := by
  unfold lowerChar
  rw [if_neg (show ¬(c = 'A') from fun h => hm (by rw [h]; decide))]
  rw [if_neg (show ¬(c = 'B') from fun h => hm (by rw [h]; decide))]
  rw [if_neg (show ¬(c = 'C') from fun h => hm (by rw [h]; decide))]
  rw [if_neg (show ¬(c = 'D') from fun h => hm (by rw [h]; decide))]
  rw [if_neg (show ¬(c = 'E') from fun h => hm (by rw [h]; decide))]
  rw [if_neg (show ¬(c = 'F') from fun h => hm (by rw [h]; decide))]
  rw [if_neg (show ¬(c = 'G') from fun h => hm (by rw [h]; decide))]
  rw [if_neg (show ¬(c = 'H') from fun h => hm (by rw [h]; decide))]
  rw [if_neg (show ¬(c = 'I') from fun h => hm (by rw [h]; decide))]
  rw [if_neg (show ¬(c = 'J') from fun h => hm (by rw [h]; decide))]
  rw [if_neg (show ¬(c = 'K') from fun h => hm (by rw [h]; decide))]
  rw [if_neg (show ¬(c = 'L') from fun h => hm (by rw [h]; decide))]
  rw [if_neg (show ¬(c = 'M') from fun h => hm (by rw [h]; decide))]
  rw [if_neg (show ¬(c = 'N') from fun h => hm (by rw [h]; decide))]
  rw [if_neg (show ¬(c = 'O') from fun h => hm (by rw [h]; decide))]
  rw [if_neg (show ¬(c = 'P') from fun h => hm (by rw [h]; decide))]
  rw [if_neg (show ¬(c = 'Q') from fun h => hm (by rw [h]; decide))]
  rw [if_neg (show ¬(c = 'R') from fun h => hm (by rw [h]; decide))]
  rw [if_neg (show ¬(c = 'S') from fun h => hm (by rw [h]; decide))]
  rw [if_neg (show ¬(c = 'T') from fun h => hm (by rw [h]; decide))]
  rw [if_neg (show ¬(c = 'U') from fun h => hm (by rw [h]; decide))]
  rw [if_neg (show ¬(c = 'V') from fun h => hm (by rw [h]; decide))]
  rw [if_neg (show ¬(c = 'W') from fun h => hm (by rw [h]; decide))]
  rw [if_neg (show ¬(c = 'X') from fun h => hm (by rw [h]; decide))]
  rw [if_neg (show ¬(c = 'Y') from fun h => hm (by rw [h]; decide))]
  rw [if_neg (show ¬(c = 'Z') from fun h => hm (by rw [h]; decide))]

theorem lowerChar_base (c : Char) :
    lowerChar c = c ∨ lowerChar c ∈
      ['a', 'b', 'c', 'd', 'e', 'f', 'g', 'h', 'i', 'j', 'k', 'l', 'm',
       'n', 'o', 'p', 'q', 'r', 's', 't', 'u', 'v', 'w', 'x', 'y', 'z'] := by
  by_cases hm : c ∈ ['A', 'B', 'C', 'D', 'E', 'F', 'G', 'H', 'I', 'J', 'K',
      'L', 'M', 'N', 'O', 'P', 'Q', 'R', 'S', 'T', 'U', 'V', 'W', 'X', 'Y', 'Z']
  · simp only [List.mem_cons, List.not_mem_nil, or_false] at hm
    rcases hm with rfl | rfl | rfl | rfl | rfl | rfl | rfl | rfl | rfl | rfl |
      rfl | rfl | rfl | rfl | rfl | rfl | rfl | rfl | rfl | rfl | rfl | rfl |
      rfl | rfl | rfl | rfl
    all_goals exact Or.inr (by decide)
  · exact Or.inl (lowerChar_of_not_upper c hm)

theorem lowerChar_idem (c : Char) : lowerChar (lowerChar c) = lowerChar c := by
  rcases lowerChar_base c with h | h
  · rw [h]
    exact h
  · simp only [List.mem_cons, List.not_mem_nil, or_false] at h
    rcases h with h | h | h | h | h | h | h | h | h | h | h | h | h | h | h |
      h | h | h | h | h | h | h | h | h | h | h
    all_goals rw [h]; decide

theorem isWs_lowerChar (c : Char) : isWsChar (lowerChar c) = isWsChar c := by
  by_cases hm : c ∈ ['A', 'B', 'C', 'D', 'E', 'F', 'G', 'H', 'I', 'J', 'K',
      'L', 'M', 'N', 'O', 'P', 'Q', 'R', 'S', 'T', 'U', 'V', 'W', 'X', 'Y', 'Z']
  · simp only [List.mem_cons, List.not_mem_nil, or_false] at hm
    rcases hm with rfl | rfl | rfl | rfl | rfl | rfl | rfl | rfl | rfl | rfl |
      rfl | rfl | rfl | rfl | rfl | rfl | rfl | rfl | rfl | rfl | rfl | rfl |
      rfl | rfl | rfl | rfl
    all_goals decide
  · rw [lowerChar_of_not_upper c hm]

theorem dropWhile_head_false {α} (p : α → Bool) (l : List α) (a : α)
    (h : (l.dropWhile p).head? = some a) : p a = false := by
  induction l with
  | nil => simp [List.dropWhile] at h
  | cons x xs ih =>
    rw [List.dropWhile_cons] at h
    split at h
    · exact ih h
    · next hx =>
      injection h with h
      subst h
      simpa using hx

theorem dropWhile_of_head_false {α} (p : α → Bool) (l : List α)
    (h : ∀ a, l.head? = some a → p a = false) : l.dropWhile p = l := by
  cases l with
  | nil => rfl
  | cons x xs =>
    rw [List.dropWhile_cons]
    simp [h x rfl]

theorem dropWhile_idem {α} (p : α → Bool) (l : List α) :
    (l.dropWhile p).dropWhile p = l.dropWhile p :=
  dropWhile_of_head_false p _ fun a ha => dropWhile_head_false p l a ha

theorem getLast?_dropWhile {α} (p : α → Bool) (l : List α) :
    l.dropWhile p = [] ∨ (l.dropWhile p).getLast? = l.getLast? := by
  induction l with
  | nil => exact Or.inl rfl
  | cons x xs ih =>
    rw [List.dropWhile_cons]
    split
    · by_cases hnil : xs.dropWhile p = []
      · exact Or.inl hnil
      · right
        rcases ih with h | h
        · exact absurd h hnil
        · rw [h]
          cases xs with
          | nil => exact absurd rfl hnil
          | cons y ys => rw [List.getLast?_cons_cons]
    · exact Or.inr rfl

theorem dropWhile_map_comm {α} (f : α → α) (p : α → Bool)
    (hf : ∀ a, p (f a) = p a) (l : List α) :
    (l.map f).dropWhile p = (l.dropWhile p).map f := by
  induction l with
  | nil => rfl
  | cons x xs ih =>
    rw [List.map_cons, List.dropWhile_cons, List.dropWhile_cons, hf]
    split <;> simp [ih]

theorem trimChars_map_comm (f : Char → Char)
    (hf : ∀ a, isWsChar (f a) = isWsChar a) (l : List Char) :
    trimChars (l.map f) = (trimChars l).map f := by
  unfold trimChars
  rw [dropWhile_map_comm f isWsChar hf, ← List.map_reverse,
    dropWhile_map_comm f isWsChar hf, ← List.map_reverse]

theorem trimChars_idem (l : List Char) :
    trimChars (trimChars l) = trimChars l := by
  have h1 : (trimChars l).dropWhile isWsChar = trimChars l := by
    apply dropWhile_of_head_false
    intro a ha
    unfold trimChars at ha
    rw [List.head?_reverse] at ha
    rcases getLast?_dropWhile isWsChar (l.dropWhile isWsChar).reverse with h | h
    · rw [h] at ha
      simp at ha
    · rw [h, List.getLast?_reverse] at ha
      exact dropWhile_head_false isWsChar l a ha
  have h2 : (trimChars l).reverse.dropWhile isWsChar = (trimChars l).reverse := by
    show ((((l.dropWhile isWsChar).reverse.dropWhile isWsChar).reverse).reverse).dropWhile
        isWsChar
      = (((l.dropWhile isWsChar).reverse.dropWhile isWsChar).reverse).reverse
    simp only [List.reverse_reverse]
    exact dropWhile_idem isWsChar _
  show (((trimChars l).dropWhile isWsChar).reverse.dropWhile isWsChar).reverse
      = trimChars l
  rw [h1, h2, List.reverse_reverse]

theorem stripLower_idem (s : String) :
    stripLower (stripLower s) = stripLower s := by
  unfold stripLower
  have hdata : (String.mk ((trimChars s.data).map lowerChar)).data
      = (trimChars s.data).map lowerChar := rfl
  rw [hdata, trimChars_map_comm lowerChar isWs_lowerChar, trimChars_idem,
    List.map_map]
  congr 1
  exact List.map_congr_left fun a _ => lowerChar_idem a

theorem stripLower_fix_of_mem (cols : List String) (x : String)
    (hx : x ∈ cols.map stripLower) : stripLower x = x := by
  obtain ⟨y, _, rfl⟩ := List.mem_map.mp hx
  exact stripLower_idem y

theorem fix_ne_canon (x : String) (h : stripLower x = x) :
    x ≠ "Date" ∧ x ≠ "Sales" ∧ x ≠ "Category" := by
  refine ⟨?_, ?_, ?_⟩ <;> intro he <;> rw [he] at h <;> exact absurd h (by decide)

theorem cnt_pos_of_mem (a : String) (l : List String) (h : a ∈ l) :
    1 ≤ cnt a l := by
  induction l with
  | nil => cases h
  | cons x xs ih =>
    rw [cnt]
    rcases List.mem_cons.mp h with h | h
    · rw [if_pos h.symm]
      omega
    · have := ih h
      omega

theorem not_mem_of_cnt_zero (a : String) (l : List String) (h : cnt a l = 0) :
    a ∉ l := fun hm => by have := cnt_pos_of_mem a l hm; omega

theorem get?_firstIdx (a : String) (l : List String) (h : a ∈ l) :
    l.get? (firstIdx a l) = some a := by
  induction l with
  | nil => cases h
  | cons x xs ih =>
    rw [firstIdx]
    by_cases hx : x = a
    · rw [if_pos hx, hx]
      rfl
    · rw [if_neg hx]
      have hm : a ∈ xs := by
        rcases List.mem_cons.mp h with h | h
        · exact absurd h.symm hx
        · exact h
      exact ih hm

theorem firstIdx_of_get?_unique (a : String) (l : List String) (p : Nat)
    (hg : l.get? p = some a) (hc : cnt a l = 1) : firstIdx a l = p := by
  induction l generalizing p with
  | nil => cases hg
  | cons x xs ih =>
    cases p with
    | zero =>
      injection hg with hg
      rw [firstIdx, if_pos hg]
    | succ n =>
      have hmem : a ∈ xs := List.get?_mem hg
      have hcx : cnt a xs ≥ 1 := cnt_pos_of_mem a xs hmem
      rw [cnt] at hc
      have hx : x ≠ a := by
        intro he
        rw [if_pos he] at hc
        omega
      rw [firstIdx, if_neg hx]
      have : cnt a xs = 1 := by
        rw [if_neg hx] at hc
        omega
      rw [ih n hg this]

theorem cnt_map_congr (a b : String) (g : String → String) (l : List String)
    (h : ∀ x ∈ l, g x = a ↔ x = b) : cnt a (l.map g) = cnt b l := by
  induction l with
  | nil => rfl
  | cons x xs ih =>
    rw [List.map_cons, cnt, cnt,
      ih fun y hy => h y (List.mem_cons_of_mem x hy)]
    by_cases hx : x = b
    · rw [if_pos ((h x (List.mem_cons_self x xs)).mpr hx), if_pos hx]
    · rw [if_neg (fun he => hx ((h x (List.mem_cons_self x xs)).mp he)),
        if_neg hx]

theorem firstIdx_map_congr (a : String) (g h : String → String)
    (l : List String) (hgh : ∀ x ∈ l, (g x = a ↔ h x = a)) :
    firstIdx a (l.map g) = firstIdx a (l.map h) := by
  induction l with
  | nil => rfl
  | cons x xs ih =>
    rw [List.map_cons, List.map_cons, firstIdx, firstIdx]
    by_cases hx : g x = a
    · rw [if_pos hx, if_pos ((hgh x (List.mem_cons_self x xs)).mp hx)]
    · rw [if_neg hx,
        if_neg (fun he => hx ((hgh x (List.mem_cons_self x xs)).mpr he)),
        ih fun y hy => hgh y (List.mem_cons_of_mem x hy)]

theorem mem_renameLabel (a b x : String) (l : List String)
    (h : x ∈ renameLabel a b l) : x = b ∨ x ∈ l := by
  obtain ⟨y, hy, he⟩ := List.mem_map.mp h
  by_cases hya : y = a
  · rw [hya] at he
    simp only [if_pos rfl] at he
    exact Or.inl he.symm
  · rw [if_neg hya] at he
    exact Or.inr (he ▸ hy)

theorem filter_head?_decomp {α} (p : α → Bool) (l : List α) (a : α)
    (h : (l.filter p).head? = some a) :
    ∃ P S, l = P ++ a :: S ∧ (∀ x ∈ P, p x = false) ∧ p a = true := by
  induction l with
  | nil => simp [List.filter_nil] at h
  | cons x xs ih =>
    rw [List.filter_cons] at h
    split at h
    · next hx =>
      rw [List.head?_cons] at h
      injection h with h
      subst h
      exact ⟨[], xs, rfl, by simp, hx⟩
    · next hx =>
      obtain ⟨P, S, hl, hP, hpa⟩ := ih h
      refine ⟨x :: P, S, by rw [hl]; rfl, ?_, hpa⟩
      intro y hy
      rcases List.mem_cons.mp hy with hy | hy
      · subst hy
        simpa using hx
      · exact hP y hy

theorem firstMatch_none_of (pat : String) (l : List String)
    (h : ∀ x ∈ l, hasSub x pat = false) : firstMatch pat l = none := by
  unfold firstMatch
  rw [List.filter_eq_nil.mpr fun a ha => by simp [h a ha]]
  rfl

theorem firstMatch_some (pat : String) (l : List String) (m : String)
    (h : firstMatch pat l = some m) : m ∈ l ∧ hasSub m pat = true := by
  obtain ⟨P, S, hl, _, hpa⟩ := filter_head?_decomp _ l m h
  exact ⟨hl ▸ (List.mem_append.mpr (Or.inr (List.mem_cons_self m S))), hpa⟩

theorem firstMatch_renameLabel_hit (pat a b : String) (l : List String)
    (h : firstMatch pat l = some a) (hb : hasSub b pat = true) :
    firstMatch pat (renameLabel a b l) = some b := by
  obtain ⟨P, S, hl, hP, hpa⟩ := filter_head?_decomp _ l a h
  subst hl
  unfold renameLabel firstMatch
  rw [List.map_append, List.map_cons, if_pos rfl, List.filter_append,
    List.filter_cons, if_pos hb]
  have hPid : List.map (fun c => if c = a then b else c) P = P := by
    have h1 : List.map (fun c => if c = a then b else c) P = List.map id P :=
      List.map_congr_left fun x hx => by
        rw [if_neg fun he => by
          subst he
          exact absurd hpa (by simp [hP x hx])]
        rfl
    rw [h1, List.map_id]
  rw [hPid, List.filter_eq_nil.mpr fun y hy => by simp [hP y hy]]
  rfl

theorem firstMatch_renameLabel_miss (pat a b m : String) (l : List String)
    (h : firstMatch pat l = some m) (hm : m ≠ a) (hb : hasSub b pat = false) :
    firstMatch pat (renameLabel a b l) = some m := by
  obtain ⟨P, S, hl, hP, hpa⟩ := filter_head?_decomp _ l m h
  subst hl
  unfold renameLabel firstMatch
  rw [List.map_append, List.map_cons, if_neg hm, List.filter_append,
    List.filter_cons, if_pos hpa]
  have hPn : ∀ y ∈ List.map (fun c => if c = a then b else c) P,
      hasSub y pat = false := by
    intro y hy
    obtain ⟨z, hz, he⟩ := List.mem_map.mp hy
    by_cases hza : z = a
    · rw [if_pos hza] at he
      exact he ▸ hb
    · rw [if_neg hza] at he
      exact he ▸ hP z hz
  rw [List.filter_eq_nil.mpr fun y hy => by simp [hPn y hy]]
  rfl

theorem filter_eq_single (p : String → Bool) (l : List String) (a : String)
    (hcnt : cnt a l = 1) (hpa : p a = true)
    (hother : ∀ x ∈ l, x ≠ a → p x = false) : l.filter p = [a] := by
  induction l with
  | nil => simp [cnt] at hcnt
  | cons x xs ih =>
    rw [cnt] at hcnt
    by_cases hx : x = a
    · subst hx
      rw [if_pos rfl] at hcnt
      have hzero : cnt x xs = 0 := by omega
      rw [List.filter_cons, if_pos hpa,
        List.filter_eq_nil.mpr fun y hy => by
          simp [hother y (List.mem_cons_of_mem x hy)
            fun he => not_mem_of_cnt_zero x xs hzero (he ▸ hy)]]
    · rw [if_neg hx] at hcnt
      rw [List.filter_cons,
        if_neg (by simp [hother x (List.mem_cons_self x xs) hx])]
      exact ih (by omega) fun y hy hya =>
        hother y (List.mem_cons_of_mem x hy) hya

theorem cnt_renameLabel_self (a b : String) (l : List String)
    (hb : ∀ x ∈ l, x ≠ b) : cnt b (renameLabel a b l) = cnt a l := by
  induction l with
  | nil => rfl
  | cons x xs ih =>
    have ih2 := ih fun y hy => hb y (List.mem_cons_of_mem x hy)
    unfold renameLabel at ih2 ⊢
    rw [List.map_cons, cnt, cnt, ih2]
    by_cases hx : x = a
    · rw [if_pos hx, if_pos rfl, if_pos hx]
    · rw [if_neg hx, if_neg (hb x (List.mem_cons_self x xs)), if_neg hx]

theorem cnt_renameLabel_other (a b c : String) (l : List String)
    (ha : a ≠ c) (hb : b ≠ c) : cnt c (renameLabel a b l) = cnt c l := by
  induction l with
  | nil => rfl
  | cons x xs ih =>
    unfold renameLabel at ih ⊢
    rw [List.map_cons, cnt, cnt, ih]
    by_cases hx : x = a
    · rw [if_pos hx, if_neg hb, if_neg (hx ▸ ha)]
    · rw [if_neg hx]

theorem map_stripLower_renameLabel (a b b' : String) (L : List String)
    (hfix : ∀ x ∈ L, stripLower x = x) (hb : stripLower b = b') :
    (renameLabel a b L).map stripLower = renameLabel a b' L := by
  unfold renameLabel
  rw [List.map_map]
  apply List.map_congr_left
  intro x hx
  by_cases hxa : x = a
  · simp only [Function.comp, if_pos hxa, hb]
  · simp only [Function.comp, if_neg hxa, hfix x hx]

theorem renameLabel_restore (dn : String) (L : List String)
    (hlit : "date" ∈ L → dn = "date") :
    renameLabel "date" "Date" (renameLabel dn "date" L)
      = renameLabel dn "Date" L := by
  unfold renameLabel
  rw [List.map_map]
  apply List.map_congr_left
  intro x hx
  by_cases hxd : x = dn
  · simp [Function.comp, hxd]
  · have hx2 : x ≠ "date" := fun he => hxd (by rw [he, (hlit (he ▸ hx)).symm])
    simp [Function.comp, hxd, hx2]

theorem cnt_eq_zero_of_not_mem (a : String) (l : List String) (h : a ∉ l) :
    cnt a l = 0 := by
  induction l with
  | nil => rfl
  | cons x xs ih =>
    rw [cnt, if_neg (fun he : x = a => h (he ▸ List.mem_cons_self x xs)),
      ih fun hm => h (List.mem_cons_of_mem x hm)]

theorem mem_of_cnt_eq_one (a : String) (l : List String) (h : cnt a l = 1) :
    a ∈ l := by
  by_cases hm : a ∈ l
  · exact hm
  · rw [cnt_eq_zero_of_not_mem a l hm] at h
    cases h

theorem firstIdx_append_cons (a : String) (P S : List String)
    (h : ∀ x ∈ P, x ≠ a) : firstIdx a (P ++ a :: S) = P.length := by
  induction P with
  | nil => rw [List.nil_append, firstIdx, if_pos rfl]; rfl
  | cons x xs ih =>
    rw [List.cons_append, firstIdx,
      if_neg (h x (List.mem_cons_self x xs)),
      ih fun y hy => h y (List.mem_cons_of_mem x hy)]
    rfl

theorem get?_append_length {α} (P S : List α) (x : α) :
    (P ++ x :: S).get? P.length = some x := by
  induction P with
  | nil => rfl
  | cons y ys ih => exact ih

theorem get?_renameLabel (a b : String) (l : List String) (i : Nat) :
    (renameLabel a b l).get? i
      = (l.get? i).map fun c => if c = a then b else c := by
  unfold renameLabel
  exact List.get?_map _ l i

theorem renameLabel_self_id (a : String) (l : List String) :
    renameLabel a a l = l := by
  unfold renameLabel
  have h : List.map (fun c => if c = a then a else c) l = List.map id l :=
    List.map_congr_left fun x _ => by
      by_cases hx : x = a
      · rw [if_pos hx, hx]
        rfl
      · rw [if_neg hx]
        rfl
  rw [h, List.map_id]

theorem canonical_firstMatch (cols : List String) (pat canonU canonL : String)
    (hcnt : cnt canonU cols = 1)
    (hpa : hasSub canonL pat = true)
    (hiff : ∀ x ∈ cols, stripLower x = canonL ↔ x = canonU)
    (hoth : ∀ y ∈ cols.map stripLower, y ≠ canonL → hasSub y pat = false) :
    firstMatch pat (cols.map stripLower) = some canonL := by
  unfold firstMatch
  rw [filter_eq_single _ _ canonL
    (by rw [cnt_map_congr canonL canonU stripLower cols hiff]; exact hcnt)
    hpa hoth]
  rfl

theorem optMap_length {α β} (f : α → Option β) (l : List α) (l' : List β)
    (h : optMap f l = some l') : l'.length = l.length := by
  induction l generalizing l' with
  | nil =>
    injection h with h
    subst h
    rfl
  | cons a t ih =>
    rw [optMap] at h
    cases hfa : f a with
    | none => rw [hfa] at h; cases h
    | some b =>
      rw [hfa] at h
      cases hot : optMap f t with
      | none => rw [hot] at h; cases h
      | some bt =>
        rw [hot] at h
        injection h with h
        rw [← h, List.length_cons, List.length_cons, ih bt hot]

theorem optMap_get? {α β} (f : α → Option β) (l : List α) (l' : List β)
    (h : optMap f l = some l') (i : Nat) :
    (l.get? i = none ∧ l'.get? i = none) ∨
      ∃ a b, l.get? i = some a ∧ l'.get? i = some b ∧ f a = some b := by
  induction l generalizing l' i with
  | nil =>
    injection h with h
    subst h
    exact Or.inl ⟨rfl, rfl⟩
  | cons a t ih =>
    rw [optMap] at h
    cases hfa : f a with
    | none => rw [hfa] at h; cases h
    | some b =>
      rw [hfa] at h
      cases hot : optMap f t with
      | none => rw [hot] at h; cases h
      | some bt =>
        rw [hot] at h
        injection h with h
        subst h
        cases i with
        | zero => exact Or.inr ⟨a, b, rfl, rfl, hfa⟩
        | succ n => exact ih bt hot n

theorem optMap_mem {α β} (f : α → Option β) (l : List α) (l' : List β)
    (h : optMap f l = some l') (b : β) (hb : b ∈ l') :
    ∃ a ∈ l, f a = some b := by
  induction l generalizing l' with
  | nil =>
    injection h with h
    subst h
    cases hb
  | cons a t ih =>
    rw [optMap] at h
    cases hfa : f a with
    | none => rw [hfa] at h; cases h
    | some b0 =>
      rw [hfa] at h
      cases hot : optMap f t with
      | none => rw [hot] at h; cases h
      | some bt =>
        rw [hot] at h
        injection h with h
        subst h
        rcases List.mem_cons.mp hb with hb | hb
        · exact ⟨a, List.mem_cons_self a t, hb ▸ hfa⟩
        · obtain ⟨a0, ha0, hf0⟩ := ih bt hot hb
          exact ⟨a0, List.mem_cons_of_mem a ha0, hf0⟩

theorem optMap_of_all_self {α} (f : α → Option α) (l : List α)
    (h : ∀ a ∈ l, f a = some a) : optMap f l = some l := by
  induction l with
  | nil => rfl
  | cons a t ih =>
    rw [optMap, h a (List.mem_cons_self a t),
      ih fun x hx => h x (List.mem_cons_of_mem a hx)]

theorem set_get?_self {α} (l : List α) (n : Nat) (a : α)
    (h : l.get? n = some a) : l.set n a = l := by
  induction l generalizing n with
  | nil => cases h
  | cons x xs ih =>
    cases n with
    | zero =>
      injection h with h
      rw [List.set, h]
    | succ m =>
      rw [List.set, ih m h]

theorem toDatetime_out (v w : Value) (h : toDatetime v = some w) :
    ∃ d, w = Value.date d := by
  cases v with
  | date d =>
    injection h with h
    exact ⟨d, h.symm⟩
  | num n =>
    injection h with h
    exact ⟨n, h.symm⟩
  | str s =>
    have h2 : (parseIsoDate s).map Value.date = some w := h
    cases hp : parseIsoDate s with
    | none => rw [hp] at h2; cases h2
    | some d =>
      rw [hp] at h2
      injection h2 with h2
      exact ⟨d, h2.symm⟩

theorem coerceRowAt_get?_ne (p : Nat) (r r' : List Value) (j : Nat)
    (h : coerceRowAt p r = some r') (hj : j ≠ p) : r'.get? j = r.get? j := by
  unfold coerceRowAt at h
  cases hg : r.get? p with
  | none => rw [hg] at h; cases h
  | some v =>
    rw [hg] at h
    have h2 : (toDatetime v).map (fun w => r.set p w) = some r' := h
    cases hd : toDatetime v with
    | none => rw [hd] at h2; cases h2
    | some w =>
      rw [hd] at h2
      injection h2 with h2
      rw [← h2]
      exact List.get?_set_ne w r (fun he => hj he.symm)

theorem coerceRowAt_self (p : Nat) (r r' : List Value)
    (h : coerceRowAt p r = some r') : coerceRowAt p r' = some r' := by
  unfold coerceRowAt at h
  cases hg : r.get? p with
  | none => rw [hg] at h; cases h
  | some v =>
    rw [hg] at h
    have h2 : (toDatetime v).map (fun w => r.set p w) = some r' := h
    cases hd : toDatetime v with
    | none => rw [hd] at h2; cases h2
    | some w =>
      rw [hd] at h2
      injection h2 with h2
      subst h2
      obtain ⟨d, hw⟩ := toDatetime_out v w hd
      subst hw
      have hg' : (r.set p (Value.date d)).get? p = some (Value.date d) := by
        rw [List.get?_set_eq, hg]
        rfl
      have hgoal : coerceRowAt p (r.set p (Value.date d))
          = (toDatetime (Value.date d)).map
              (fun z => (r.set p (Value.date d)).set p z) := by
        unfold coerceRowAt
        rw [hg']
      rw [hgoal]
      show some ((r.set p (Value.date d)).set p (Value.date d))
        = some (r.set p (Value.date d))
      rw [set_get?_self _ p _ hg']

theorem coerceDateCol_inv (t : Table) (u : Table)
    (h : coerceDateCol t = some u) :
    u.cols = t.cols ∧ cnt "Date" t.cols = 1 ∧
      optMap (coerceRowAt (firstIdx "Date" t.cols)) t.rows = some u.rows := by
  unfold coerceDateCol at h
  split at h
  · next hcnt =>
    cases ho : optMap (coerceRowAt (firstIdx "Date" t.cols)) t.rows with
    | none => rw [ho] at h; cases h
    | some rs =>
      rw [ho] at h
      injection h with h
      rw [← h]
      exact ⟨rfl, hcnt, rfl⟩
  · cases h

theorem coerceDateCol_recoerce (C : List String) (R : List (List Value))
    (u : Table) (h : coerceDateCol ⟨C, R⟩ = some u) (C' : List String)
    (hcnt : cnt "Date" C' = 1)
    (hidx : firstIdx "Date" C' = firstIdx "Date" C) :
    coerceDateCol ⟨C', u.rows⟩ = some ⟨C', u.rows⟩ := by
  obtain ⟨_, _, hrows⟩ := coerceDateCol_inv _ u h
  unfold coerceDateCol
  rw [if_pos hcnt]
  show (optMap (coerceRowAt (firstIdx "Date" C')) u.rows).map _ = _
  rw [hidx, optMap_of_all_self _ u.rows fun r hr => by
    obtain ⟨r0, _, hr0⟩ := optMap_mem _ _ _ hrows r hr
    exact coerceRowAt_self _ r0 r hr0]
  rfl

/-- C2 amended: the three fields are resolved sequentially (`date` in pass 1,
then `date`, `sales`, `category` on the pass-2 snapshot), and a column
renamed for an earlier field no longer matches later fields. Provided the
first `sales` and `category` matches differ from the first `date` match
(`hds`, `hdc`), the literal name `date` occurs only as the first date match
if at all (`hlit`), and the date coercion succeeds (`hcoe`), the normalizer
renames exactly the first column (in column order of the trimmed,
lower-cased names `L`) matching each field substring to the canonical
capitalized name — `renameLabel` renames by label, i.e. every column
bearing that name, which is exactly one column when names are distinct —
and leaves every other column at its lower-cased name, with no warning when
several columns match. Without `hds`/`hdc` the claim fails
(`c2_first_match_cex`). -/
theorem c2_first_match_amended (t : Table) (L : List String)
    (hL : L = t.cols.map stripLower)
    (dn sn cn : String)
    (hd : firstMatch "date" L = some dn)
    (hs : firstMatch "sales" L = some sn)
    (hc : firstMatch "category" L = some cn)
    (hds : sn ≠ dn) (hdc : cn ≠ dn)
    (hlit : "date" ∈ L → dn = "date")
    (u : Table)
    (hcoe : coerceDateCol ⟨renameLabel dn "Date" L, t.rows⟩ = some u) :
    normalize t = .ok ⟨renameLabel cn "Category"
      (renameLabel sn "Sales" (renameLabel dn "Date" L)), u.rows⟩ := by
  have hfix : ∀ x ∈ L, stripLower x = x := fun x hx =>
    stripLower_fix_of_mem t.cols x (hL ▸ hx)
  obtain ⟨hucols, hucnt, hurows⟩ := coerceDateCol_inv _ u hcoe
  have hM : u.cols.map stripLower = renameLabel dn "date" L := by
    rw [hucols]
    exact map_stripLower_renameLabel dn "Date" "date" L hfix (by decide)
  have hMd : firstMatch "date" (renameLabel dn "date" L) = some "date" :=
    firstMatch_renameLabel_hit "date" dn "date" L hd (by decide)
  have hMs : firstMatch "sales" (renameLabel dn "date" L) = some sn :=
    firstMatch_renameLabel_miss "sales" dn "date" sn L hs hds (by decide)
  have hMc : firstMatch "category" (renameLabel dn "date" L) = some cn :=
    firstMatch_renameLabel_miss "category" dn "date" cn L hc hdc (by decide)
  have hrestore : renameLabel "date" "Date" (renameLabel dn "date" L)
      = renameLabel dn "Date" L := renameLabel_restore dn L hlit
  have hsnL : sn ∈ L := (firstMatch_some _ _ _ hs).1
  have hcnL : cn ∈ L := (firstMatch_some _ _ _ hc).1
  have hsnne := fix_ne_canon sn (hfix sn hsnL)
  have hcnne := fix_ne_canon cn (hfix cn hcnL)
  have hcnt3 : cnt "Date" (renameLabel cn "Category"
      (renameLabel sn "Sales" (renameLabel dn "Date" L))) = 1 := by
    rw [cnt_renameLabel_other cn "Category" "Date" _ hcnne.1 (by decide),
      cnt_renameLabel_other sn "Sales" "Date" _ hsnne.1 (by decide)]
    exact hucnt
  have hidx3 : firstIdx "Date" (renameLabel cn "Category"
        (renameLabel sn "Sales" (renameLabel dn "Date" L)))
      = firstIdx "Date" (renameLabel dn "Date" L) := by
    unfold renameLabel
    rw [List.map_map, List.map_map]
    apply firstIdx_map_congr
    intro x hx
    have hxD : x ≠ "Date" := (fix_ne_canon x (hfix x hx)).1
    simp only [Function.comp]
    by_cases hxd : x = dn
    · rw [if_pos hxd, if_neg (Ne.symm hsnne.1), if_neg (Ne.symm hcnne.1)]
    · rw [if_neg hxd]
      by_cases hxs : x = sn
      · rw [if_pos hxs, if_neg (Ne.symm hcnne.2.1)]
        exact iff_of_false (by decide) hxD
      · rw [if_neg hxs]
        by_cases hxc : x = cn
        · rw [if_pos hxc]
          exact iff_of_false (by decide) hxD
        · rw [if_neg hxc]
  have hfinal := coerceDateCol_recoerce (renameLabel dn "Date" L) t.rows u
    hcoe _ hcnt3 hidx3
  simp only [normalize]
  rw [← hL]
  simp only [hd, hcoe, hM, hMd, hMs, hMc, hrestore, hfinal]

/-- Witness for the amended C2 at `tblW`: the first matches are the distinct
columns order date, sales, category, and normalization renames exactly
those to the canonical names, keeping the unrelated `note` column. -/
theorem c2_first_match_w :
    firstMatch "date" (tblW.cols.map stripLower) = some "order date" ∧
    firstMatch "sales" (tblW.cols.map stripLower) = some "sales" ∧
    normalize tblW = .ok tblWN := by
  refine ⟨by decide, by decide, ?_⟩
  have h := c2_first_match_amended tblW (tblW.cols.map stripLower) rfl
    "order date" "sales" "category" (by decide) (by decide) (by decide)
    (by decide) (by decide) (by decide)
    ⟨["Date", "sales", "category", "note"],
     [[Value.date 20230105, Value.num 10, Value.str "Dresses", Value.str "x"],
      [Value.date 20230106, Value.num 20, Value.str "Shoes", Value.str "y"]]⟩
    (by decide)
  rw [h]
  decide

/-- C7 amended: resolution is sequential, so the field the failure names is
the first field (in the order date, sales, category) with no match among
the columns as they stand at that point: (a) if no trimmed lower-cased
column contains `date`, the failure names `Date` and lists the lower-cased
columns; (b) if a date match exists, its coercion succeeds and no column
contains `sales`, the failure names `Sales` and lists the columns after the
date renames; (c) if additionally a `sales` match survives pass 1 and no
column contains `category`, the failure names `Category` and lists the
columns after the date and sales renames. When no single column carries two
field substrings this is exactly the missing canonical field; otherwise
pass 1 can consume a later field's only match and the failure names a field
that did have a match (`c7_missing_field_cex`). -/
theorem c7_missing_field_amended (t : Table) :
    ((∀ x ∈ t.cols.map stripLower, hasSub x "date" = false) →
      normalize t = .error (.missing "Date" (t.cols.map stripLower))) ∧
    (∀ dn u, firstMatch "date" (t.cols.map stripLower) = some dn →
      coerceDateCol ⟨renameLabel dn "Date" (t.cols.map stripLower), t.rows⟩
        = some u →
      (∀ x ∈ t.cols.map stripLower, hasSub x "sales" = false) →
      normalize t = .error (.missing "Sales" (renameLabel "date" "Date"
        (renameLabel dn "date" (t.cols.map stripLower))))) ∧
    (∀ dn sn u, firstMatch "date" (t.cols.map stripLower) = some dn →
      coerceDateCol ⟨renameLabel dn "Date" (t.cols.map stripLower), t.rows⟩
        = some u →
      firstMatch "sales" (renameLabel dn "date" (t.cols.map stripLower))
        = some sn →
      (∀ x ∈ t.cols.map stripLower, hasSub x "category" = false) →
      normalize t = .error (.missing "Category" (renameLabel sn "Sales"
        (renameLabel "date" "Date"
          (renameLabel dn "date" (t.cols.map stripLower)))))) := by
  have hfix : ∀ x ∈ t.cols.map stripLower, stripLower x = x := fun x hx =>
    stripLower_fix_of_mem t.cols x hx
  refine ⟨?_, ?_, ?_⟩
  · intro hnod
    simp only [normalize]
    simp only [firstMatch_none_of "date" _ hnod]
  · intro dn u hd hcoe hnos
    obtain ⟨hucols, _, _⟩ := coerceDateCol_inv _ u hcoe
    have hM : u.cols.map stripLower
        = renameLabel dn "date" (t.cols.map stripLower) := by
      rw [hucols]
      exact map_stripLower_renameLabel dn "Date" "date" _ hfix (by decide)
    have hMd : firstMatch "date"
          (renameLabel dn "date" (t.cols.map stripLower)) = some "date" :=
      firstMatch_renameLabel_hit "date" dn "date" _ hd (by decide)
    have hMsn : firstMatch "sales"
        (renameLabel dn "date" (t.cols.map stripLower)) = none :=
      firstMatch_none_of _ _ fun y hy => by
        rcases mem_renameLabel dn "date" y _ hy with h | h
        · rw [h]
          decide
        · exact hnos y h
    simp only [normalize]
    simp only [hd, hcoe, hM, hMd, hMsn]
  · intro dn sn u hd hcoe hs2 hnoc
    obtain ⟨hucols, _, _⟩ := coerceDateCol_inv _ u hcoe
    have hM : u.cols.map stripLower
        = renameLabel dn "date" (t.cols.map stripLower) := by
      rw [hucols]
      exact map_stripLower_renameLabel dn "Date" "date" _ hfix (by decide)
    have hMd : firstMatch "date"
          (renameLabel dn "date" (t.cols.map stripLower)) = some "date" :=
      firstMatch_renameLabel_hit "date" dn "date" _ hd (by decide)
    have hMcn : firstMatch "category"
        (renameLabel dn "date" (t.cols.map stripLower)) = none :=
      firstMatch_none_of _ _ fun y hy => by
        rcases mem_renameLabel dn "date" y _ hy with h | h
        · rw [h]
          decide
        · exact hnoc y h
    simp only [normalize]
    simp only [hd, hcoe, hM, hMd, hs2, hMcn]

/-- Witness for the amended C7: each of the three failure branches at a
concrete table. -/
theorem c7_missing_field_w :
    normalize tblC7a = .error (.missing "Date" ["x", "y"]) ∧
    normalize tblC7b = .error (.missing "Sales" ["Date", "x"]) ∧
    normalize tblC7c = .error (.missing "Category" ["Date", "Sales", "x"]) := by
  refine ⟨?_, ?_, ?_⟩
  · have h := (c7_missing_field_amended tblC7a).1 (by decide)
    rw [h]
    decide
  · have h := (c7_missing_field_amended tblC7b).2.1 "date"
      ⟨["Date", "x"], [[Value.date 20230101, Value.num 1]]⟩
      (by decide) (by decide) (by decide)
    rw [h]
    decide
  · have h := (c7_missing_field_amended tblC7c).2.2 "date" "sales"
      ⟨["Date", "sales", "x"], [[Value.date 20230101, Value.num 2, Value.num 3]]⟩
      (by decide) (by decide) (by decide) (by decide)
    rw [h]
    decide

/-- C3 amended: normalization is idempotent on every normalized table none
of whose extra (non-canonical) columns contains `date`, `sales`, or
`category` as a substring: if `normalize t` succeeded with result `t1`, the
labels `Date`, `Sales`, `Category` each occur once in `t1`, every other
column name is a trimmed lower-cased name with none of the three substrings,
and the `Date` column holds coerced date values, then `normalize t1 = t1`.
The proviso is necessary: a leftover lower-cased column such as `sales`
collides with the re-lower-cased canonical `Sales` on the second run and is
renamed too (`c3_idempotence_cex`). -/
theorem c3_idempotence_amended (t t1 : Table)
    (h1 : normalize t = .ok t1)
    (hcD : cnt "Date" t1.cols = 1)
    (hcS : cnt "Sales" t1.cols = 1)
    (hcC : cnt "Category" t1.cols = 1)
    (hleft : ∀ x ∈ t1.cols, x ≠ "Date" → x ≠ "Sales" → x ≠ "Category" →
      stripLower x = x ∧ hasSub x "date" = false ∧ hasSub x "sales" = false ∧
        hasSub x "category" = false)
    (hrows : ∀ r ∈ t1.rows, ∃ d,
      r.get? (firstIdx "Date" t1.cols) = some (Value.date d)) :
    normalize t1 = .ok t1 := by
  have hclass : ∀ x ∈ t1.cols, x = "Date" ∨ x = "Sales" ∨ x = "Category" ∨
      (stripLower x = x ∧ hasSub x "date" = false ∧ hasSub x "sales" = false ∧
        hasSub x "category" = false) := by
    intro x hx
    by_cases h1x : x = "Date"
    · exact Or.inl h1x
    by_cases h2x : x = "Sales"
    · exact Or.inr (Or.inl h2x)
    by_cases h3x : x = "Category"
    · exact Or.inr (Or.inr (Or.inl h3x))
    exact Or.inr (Or.inr (Or.inr (hleft x hx h1x h2x h3x)))
  have hfixall : ∀ y ∈ t1.cols.map stripLower, stripLower y = y := fun y hy =>
    stripLower_fix_of_mem t1.cols y hy
  -- pass-1 / pass-2 candidate heads on the lower-cased columns
  have hfd : firstMatch "date" (t1.cols.map stripLower) = some "date" := by
    apply canonical_firstMatch t1.cols "date" "Date" "date" hcD (by decide)
    · intro x hx
      rcases hclass x hx with rfl | rfl | rfl | ⟨hf, hnd, _, _⟩
      · exact iff_of_true (by decide) rfl
      · exact iff_of_false (by decide) (by decide)
      · exact iff_of_false (by decide) (by decide)
      · rw [hf]
        exact iff_of_false
          (fun he => by rw [he] at hnd; exact absurd hnd (by decide))
          (fix_ne_canon x hf).1
    · intro y hy hyne
      obtain ⟨x, hx, rfl⟩ := List.mem_map.mp hy
      rcases hclass x hx with rfl | rfl | rfl | ⟨hf, hnd, _, _⟩
      · exact absurd (by decide) hyne
      · decide
      · decide
      · rw [hf]
        exact hnd
  have hfs : firstMatch "sales" (t1.cols.map stripLower) = some "sales" := by
    apply canonical_firstMatch t1.cols "sales" "Sales" "sales" hcS (by decide)
    · intro x hx
      rcases hclass x hx with rfl | rfl | rfl | ⟨hf, _, hns, _⟩
      · exact iff_of_false (by decide) (by decide)
      · exact iff_of_true (by decide) rfl
      · exact iff_of_false (by decide) (by decide)
      · rw [hf]
        exact iff_of_false
          (fun he => by rw [he] at hns; exact absurd hns (by decide))
          (fix_ne_canon x hf).2.1
    · intro y hy hyne
      obtain ⟨x, hx, rfl⟩ := List.mem_map.mp hy
      rcases hclass x hx with rfl | rfl | rfl | ⟨hf, _, hns, _⟩
      · decide
      · exact absurd (by decide) hyne
      · decide
      · rw [hf]
        exact hns
  have hfc : firstMatch "category" (t1.cols.map stripLower)
      = some "category" := by
    apply canonical_firstMatch t1.cols "category" "Category" "category" hcC
      (by decide)
    · intro x hx
      rcases hclass x hx with rfl | rfl | rfl | ⟨hf, _, _, hnc⟩
      · exact iff_of_false (by decide) (by decide)
      · exact iff_of_false (by decide) (by decide)
      · exact iff_of_true (by decide) rfl
      · rw [hf]
        exact iff_of_false
          (fun he => by rw [he] at hnc; exact absurd hnc (by decide))
          (fix_ne_canon x hf).2.2
    · intro y hy hyne
      obtain ⟨x, hx, rfl⟩ := List.mem_map.mp hy
      rcases hclass x hx with rfl | rfl | rfl | ⟨hf, _, _, hnc⟩
      · decide
      · decide
      · exact absurd (by decide) hyne
      · rw [hf]
        exact hnc
  -- rows are already coerced
  have hall : ∀ r ∈ t1.rows,
      coerceRowAt (firstIdx "Date" t1.cols) r = some r := by
    intro r hr
    obtain ⟨d, hd⟩ := hrows r hr
    unfold coerceRowAt
    rw [hd]
    show some (r.set _ (Value.date d)) = some r
    rw [set_get?_self _ _ _ hd]
  -- pass-1 rename and coercion
  have hcntd : cnt "date" (t1.cols.map stripLower) = 1 := by
    rw [cnt_map_congr "date" "Date" stripLower t1.cols]
    · exact hcD
    · intro x hx
      rcases hclass x hx with rfl | rfl | rfl | ⟨hf, hnd, _, _⟩
      · exact iff_of_true (by decide) rfl
      · exact iff_of_false (by decide) (by decide)
      · exact iff_of_false (by decide) (by decide)
      · rw [hf]
        exact iff_of_false
          (fun he => by rw [he] at hnd; exact absurd hnd (by decide))
          (fix_ne_canon x hf).1
  have hcnt2 : cnt "Date"
      (renameLabel "date" "Date" (t1.cols.map stripLower)) = 1 := by
    rw [cnt_renameLabel_self "date" "Date" _
      fun y hy => (fix_ne_canon y (hfixall y hy)).1]
    exact hcntd
  have hidx2 : firstIdx "Date"
        (renameLabel "date" "Date" (t1.cols.map stripLower))
      = firstIdx "Date" t1.cols := by
    conv_rhs => rw [← List.map_id t1.cols]
    unfold renameLabel
    rw [List.map_map]
    apply firstIdx_map_congr
    intro x hx
    rcases hclass x hx with rfl | rfl | rfl | ⟨hf, hnd, _, _⟩
    · exact iff_of_true (by decide) (by decide)
    · exact iff_of_false (by decide) (by decide)
    · exact iff_of_false (by decide) (by decide)
    · have hxd : x ≠ "date" :=
        fun he => by rw [he] at hnd; exact absurd hnd (by decide)
      simp only [Function.comp, hf]
      rw [if_neg hxd]
      exact Iff.rfl
  have hcoe2 : coerceDateCol
        ⟨renameLabel "date" "Date" (t1.cols.map stripLower), t1.rows⟩
      = some ⟨renameLabel "date" "Date" (t1.cols.map stripLower), t1.rows⟩ := by
    unfold coerceDateCol
    rw [if_pos hcnt2]
    show (optMap (coerceRowAt (firstIdx "Date"
      (renameLabel "date" "Date" (t1.cols.map stripLower)))) t1.rows).map _ = _
    rw [hidx2, optMap_of_all_self _ _ hall]
    rfl
  -- the second standardization undoes nothing
  have hM : (renameLabel "date" "Date" (t1.cols.map stripLower)).map stripLower
      = t1.cols.map stripLower := by
    rw [map_stripLower_renameLabel "date" "Date" "date" _ hfixall (by decide),
      renameLabel_self_id]
  -- the three renames restore the canonical columns
  have hC3 : renameLabel "category" "Category" (renameLabel "sales" "Sales"
        (renameLabel "date" "Date" (t1.cols.map stripLower)))
      = t1.cols := by
    conv_rhs => rw [← List.map_id t1.cols]
    unfold renameLabel
    rw [List.map_map, List.map_map, List.map_map]
    apply List.map_congr_left
    intro x hx
    rcases hclass x hx with rfl | rfl | rfl | ⟨hf, hnd, hns, hnc⟩
    · decide
    · decide
    · decide
    · have hxd : x ≠ "date" :=
        fun he => by rw [he] at hnd; exact absurd hnd (by decide)
      have hxs : x ≠ "sales" :=
        fun he => by rw [he] at hns; exact absurd hns (by decide)
      have hxc : x ≠ "category" :=
        fun he => by rw [he] at hnc; exact absurd hnc (by decide)
      simp only [Function.comp, hf]
      rw [if_neg hxd, if_neg hxs, if_neg hxc]
      rfl
  -- final coercion returns the table unchanged
  have hfinal : coerceDateCol ⟨renameLabel "category" "Category"
        (renameLabel "sales" "Sales"
          (renameLabel "date" "Date" (t1.cols.map stripLower))), t1.rows⟩
      = some t1 := by
    rw [hC3]
    unfold coerceDateCol
    rw [if_pos hcD]
    show (optMap (coerceRowAt (firstIdx "Date" t1.cols)) t1.rows).map _ = _
    rw [optMap_of_all_self _ _ hall]
    rfl
  simp only [normalize]
  simp only [hfd, hcoe2, hM, hfs, hfc, hfinal]

/-- Witness for the amended C3: `tblW` normalizes to `tblWN`, whose only
extra column `note` matches no field substring, and `tblWN` is a fixed
point of normalization. -/
theorem c3_idempotence_w :
    normalize tblW = .ok tblWN ∧ normalize tblWN = .ok tblWN := by
  refine ⟨by decide, ?_⟩
  apply c3_idempotence_amended tblW tblWN (by decide) (by decide) (by decide)
    (by decide) (by decide)
  intro r hr
  rcases List.mem_cons.mp hr with h | h
  · exact ⟨20230105, by subst h; decide⟩
  · rcases List.mem_cons.mp h with h | h
    · exact ⟨20230106, by subst h; decide⟩
    · cases h

theorem map_fix_id {α} (f : α → α) (l : List α) (h : ∀ x ∈ l, f x = x) :
    l.map f = l := by
  have h1 : l.map f = l.map id := List.map_congr_left fun x hx => h x hx
  rw [h1, List.map_id]

theorem renameLabel_eq_self_of (a b : String) (l : List String)
    (h : ∀ x ∈ l, x ≠ a) : renameLabel a b l = l := by
  unfold renameLabel
  exact map_fix_id _ l fun x hx => if_neg (h x hx)

/-- C10: whenever normalization succeeds, it changes only column names and
the values of the single `Date` column: the result has the same number of
columns (non-matching columns are retained, not dropped), the same number
of rows, and there is one column position `p` holding `Date` such that
every cell outside column `p` — in every row, in the original row order —
is unchanged. -/
theorem c10_frame (t t' : Table) (h : normalize t = .ok t') :
    t'.cols.length = t.cols.length ∧
    t'.rows.length = t.rows.length ∧
    ∃ p, t'.cols.get? p = some "Date" ∧
      ∀ i j, j ≠ p → cellAt t' i j = cellAt t i j := by
  simp only [normalize] at h
  split at h
  · exact Except.noConfusion h
  next dn heq1 =>
    split at h
    · exact Except.noConfusion h
    next u heq2 =>
      split at h
      · exact Except.noConfusion h
      next d2 heq3 =>
        split at h
        · exact Except.noConfusion h
        next s2 heq4 =>
          split at h
          · exact Except.noConfusion h
          next c2 heq5 =>
            split at h
            · exact Except.noConfusion h
            next v heq6 =>
              injection h with h
              subst h
              have hfixL : ∀ x ∈ t.cols.map stripLower, stripLower x = x :=
                fun x hx => stripLower_fix_of_mem t.cols x hx
              obtain ⟨hucols, hucnt, hurows⟩ := coerceDateCol_inv _ u heq2
              obtain ⟨hvcols, hvcnt, hvrows⟩ := coerceDateCol_inv _ v heq6
              obtain ⟨P, S, hL, hP, hpa⟩ := filter_head?_decomp _ _ dn heq1
              have hPmem : ∀ x ∈ P, x ∈ t.cols.map stripLower := fun x hx =>
                hL ▸ List.mem_append.mpr (Or.inl hx)
              have hPne : ∀ x ∈ P, x ≠ dn := by
                intro x hx he
                have hf := hP x hx
                rw [he, hpa] at hf
                cases hf
              have hC1 : renameLabel dn "Date" (t.cols.map stripLower)
                  = P ++ "Date" :: renameLabel dn "Date" S := by
                rw [hL]
                unfold renameLabel
                rw [List.map_append, List.map_cons, if_pos rfl]
                rw [map_fix_id _ P fun x hx => if_neg (hPne x hx)]
              have hp1 : firstIdx "Date"
                  (renameLabel dn "Date" (t.cols.map stripLower))
                  = P.length := by
                rw [hC1]
                apply firstIdx_append_cons
                intro x hx
                exact (fix_ne_canon x (hfixL x (hPmem x hx))).1
              have hMdecomp : u.cols.map stripLower
                  = P ++ "date" ::
                    (renameLabel dn "Date" S).map stripLower := by
                rw [hucols]
                show (renameLabel dn "Date"
                  (t.cols.map stripLower)).map stripLower = _
                rw [hC1, List.map_append, List.map_cons,
                  map_fix_id _ P fun x hx => hfixL x (hPmem x hx),
                  show stripLower "Date" = "date" from by decide]
              have hd2 : d2 = "date" := by
                have hfm : firstMatch "date" (u.cols.map stripLower)
                    = some "date" := by
                  unfold firstMatch
                  rw [hMdecomp, List.filter_append, List.filter_cons,
                    if_pos (by decide),
                    List.filter_eq_nil.mpr fun y hy => by simp [hP y hy]]
                  rfl
                rw [hfm] at heq3
                injection heq3 with heq3
                exact heq3.symm
              have hfixM : ∀ x ∈ u.cols.map stripLower, stripLower x = x :=
                fun x hx => stripLower_fix_of_mem u.cols x hx
              have hs2D : s2 ≠ "Date" :=
                (fix_ne_canon s2 (hfixM s2 (firstMatch_some _ _ _ heq4).1)).1
              have hc2D : c2 ≠ "Date" :=
                (fix_ne_canon c2 (hfixM c2 (firstMatch_some _ _ _ heq5).1)).1
              have hMp : (u.cols.map stripLower).get? P.length
                  = some "date" := by
                rw [hMdecomp]
                exact get?_append_length P _ "date"
              have hC6p : (renameLabel c2 "Category" (renameLabel s2 "Sales"
                    (renameLabel d2 "Date" (u.cols.map stripLower)))).get?
                    P.length = some "Date" := by
                rw [get?_renameLabel, get?_renameLabel, get?_renameLabel,
                  hMp, hd2]
                simp [Ne.symm hs2D, Ne.symm hc2D]
              have hp2 : firstIdx "Date" (renameLabel c2 "Category"
                    (renameLabel s2 "Sales" (renameLabel d2 "Date"
                      (u.cols.map stripLower)))) = P.length :=
                firstIdx_of_get?_unique _ _ _ hC6p hvcnt
              have hlcols : v.cols.length = t.cols.length := by
                rw [hvcols]
                show (renameLabel c2 "Category" (renameLabel s2 "Sales"
                  (renameLabel d2 "Date"
                    (u.cols.map stripLower)))).length = _
                unfold renameLabel
                simp only [List.length_map]
                rw [hucols]
                show (renameLabel dn "Date"
                  (t.cols.map stripLower)).length = _
                unfold renameLabel
                simp only [List.length_map]
              have hlrows : v.rows.length = t.rows.length := by
                have h1 := optMap_length _ _ _ hvrows
                have h2 := optMap_length _ _ _ hurows
                rw [h1]
                exact h2
              refine ⟨hlcols, hlrows, P.length, ?_, ?_⟩
              · rw [hvcols]
                exact hC6p
              · intro i j hj
                have hvrows2 : optMap (coerceRowAt P.length) u.rows
                    = some v.rows := by
                  rw [← hp2]
                  exact hvrows
                have hurows2 : optMap (coerceRowAt P.length) t.rows
                    = some u.rows := by
                  rw [← hp1]
                  exact hurows
                unfold cellAt
                rcases optMap_get? _ _ _ hvrows2 i with ⟨hnu, hnv⟩ |
                  ⟨ru, rv, hgu, hgv, hcr⟩
                · rcases optMap_get? _ _ _ hurows2 i with ⟨hnt, _⟩ |
                    ⟨rt, ru2, hgt, hgu2, _⟩
                  · rw [hnv, hnt]
                  · rw [hgu2] at hnu
                    cases hnu
                · rcases optMap_get? _ _ _ hurows2 i with ⟨hnt, hnu2⟩ |
                    ⟨rt, ru2, hgt, hgu2, hcr2⟩
                  · rw [hgu] at hnu2
                    cases hnu2
                  · rw [hgu] at hgu2
                    injection hgu2 with he
                    subst he
                    rw [hgv, hgt]
                    show rv.get? j = rt.get? j
                    rw [coerceRowAt_get?_ne _ _ _ _ hcr hj,
                      coerceRowAt_get?_ne _ _ _ _ hcr2 hj]

/-- Witness for C10 at `tblW`, whose normalization succeeds with the date
column at position 0 and the other three columns untouched. -/
theorem c10_frame_w :
    tblWN.cols.length = tblW.cols.length ∧
    tblWN.rows.length = tblW.rows.length ∧
    ∃ p, tblWN.cols.get? p = some "Date" ∧
      ∀ i j, j ≠ p → cellAt tblWN i j = cellAt tblW i j :=
  c10_frame tblW tblWN (by decide)

end FashionDashboard
